import Mathlib

/-!
Verification of the object-tasks module: a rectangle factory, a JSON codec
pair (getJSON / fromJSON), and a CSS selector builder (class Test plus the
cssSelectorBuilder facade).  JavaScript objects are modelled as explicit
state records; a method that can throw is modelled as a function returning
the state at completion (or at the throw point, since JavaScript mutations
performed before a throw persist) together with an optional error message.
-/

/-! ## The selector builder (class Test and the cssSelectorBuilder facade) -/

/-- State of a `Test` builder object: the five instance fields set by the
constructor (`this.string`, `this.idc`, `this.selector`, `this.psel`,
`this.prev`). -/
structure Test where
  string : String
  idc : Nat
  selector : Nat
  psel : Nat
  prev : String
deriving DecidableEq, Repr

/-- The message of the error thrown by `exception1` in the source. -/
def cardinalityMsg : String :=
  "Element, id and pseudo-element should not occur more then one time inside the selector"

/-- The message of the order error thrown by `exception2` and by the inline
order checks in the source. -/
def orderMsg : String :=
  "Selector parts should be arranged in the following order: element, id, class, attribute, pseudo-class, pseudo-element"

/-- `new Test(val)`: sets `string = val`, `idc = 0`, `selector = 0`,
`psel = 0`, `prev = empty`. -/
def newTest (val : String) : Test :=
  { string := val, idc := 0, selector := 0, psel := 0, prev := "" }

/-- `exception1()`: throws when `idc`, `selector` or `psel` equals 2. -/
def Test.exception1 (s : Test) : Option String :=
  if s.idc = 2 ∨ s.selector = 2 ∨ s.psel = 2 then some cardinalityMsg else none

/-- `exception2(value)`: throws when `prev` differs from `value` and `prev`
is not the empty string. -/
def Test.exception2 (s : Test) (value : String) : Option String :=
  if s.prev ≠ value ∧ s.prev ≠ "" then some orderMsg else none

/-- `element(value)`: increments `selector`, runs `exception1` then
`exception2(element)`, then sets `prev` and appends `value`. -/
def Test.element (s : Test) (value : String) : Test × Option String :=
  let s := { s with selector := s.selector + 1 }
  match s.exception1 with
  | some e => (s, some e)
  | none =>
    match s.exception2 "element" with
    | some e => (s, some e)
    | none => ({ s with prev := "element", string := s.string ++ value }, none)

/-- `stringify()`: returns the accumulated `string` field. -/
def Test.stringify (s : Test) : String := s.string

/-- `id(value)`: increments `idc`, runs `exception1` then
`exception2(element)`, then the inline `prev === psel` check, then sets
`prev = id` and appends `#value`. -/
def Test.id (s : Test) (value : String) : Test × Option String :=
  let s := { s with idc := s.idc + 1 }
  match s.exception1 with
  | some e => (s, some e)
  | none =>
    match s.exception2 "element" with
    | some e => (s, some e)
    | none =>
      if s.prev = "psel" then (s, some orderMsg)
      else ({ s with prev := "id", string := s.string ++ "#" ++ value }, none)

/-- `class(value)` (Lean name `cls` because `class` is reserved): throws when
`prev` is `attr`, else sets `prev = id` and appends `.value`. -/
def Test.cls (s : Test) (value : String) : Test × Option String :=
  if s.prev = "attr" then (s, some orderMsg)
  else ({ s with prev := "id", string := s.string ++ "." ++ value }, none)

/-- `attr(value)`: throws when `prev` is `pscl`, else sets `prev = attr` and
appends `[value]`. -/
def Test.attr (s : Test) (value : String) : Test × Option String :=
  if s.prev = "pscl" then (s, some orderMsg)
  else ({ s with prev := "attr", string := s.string ++ "[" ++ value ++ "]" }, none)

/-- `pseudoClass(value)`: throws when `prev` is `psel`, else sets
`prev = pscl` and appends `:value`. -/
def Test.pseudoClass (s : Test) (value : String) : Test × Option String :=
  if s.prev = "psel" then (s, some orderMsg)
  else ({ s with prev := "pscl", string := s.string ++ ":" ++ value }, none)

/-- `pseudoElement(value)`: sets `prev = psel` first, then increments `psel`,
runs `exception1`, then appends `::value`. -/
def Test.pseudoElement (s : Test) (value : String) : Test × Option String :=
  let s := { s with prev := "psel" }
  let s := { s with psel := s.psel + 1 }
  match s.exception1 with
  | some e => (s, some e)
  | none => ({ s with string := s.string ++ "::" ++ value }, none)

/-- `combine(selector1, combinator, selector2)`: appends
`selector1.stringify() <combinator> selector2.stringify()` and never throws. -/
def Test.combine (s : Test) (sel1 : Test) (combinator : String) (sel2 : Test) :
    Test × Option String :=
  ({ s with string :=
      s.string ++ sel1.stringify ++ " " ++ combinator ++ " " ++ sel2.stringify }, none)

namespace cssSelectorBuilder

/-- Facade `cssSelectorBuilder.element`: `new Test(empty).element(value)`. -/
def element (value : String) : Test × Option String :=
  Test.element (newTest "") value

/-- Facade `cssSelectorBuilder.id`: `new Test(empty).id(value)`. -/
def id (value : String) : Test × Option String :=
  Test.id (newTest "") value

/-- Facade `cssSelectorBuilder.class` (Lean name `cls`). -/
def cls (value : String) : Test × Option String :=
  Test.cls (newTest "") value

/-- Facade `cssSelectorBuilder.attr`. -/
def attr (value : String) : Test × Option String :=
  Test.attr (newTest "") value

/-- Facade `cssSelectorBuilder.pseudoClass`. -/
def pseudoClass (value : String) : Test × Option String :=
  Test.pseudoClass (newTest "") value

/-- Facade `cssSelectorBuilder.pseudoElement`. -/
def pseudoElement (value : String) : Test × Option String :=
  Test.pseudoElement (newTest "") value

/-- Facade `cssSelectorBuilder.combine`: `new Test(empty)` then `combine`. -/
def combine (sel1 : Test) (combinator : String) (sel2 : Test) :
    Test × Option String :=
  Test.combine (newTest "") sel1 combinator sel2

end cssSelectorBuilder

/-- One fragment-append operation of the builder, tagged with its argument. -/
inductive Op where
  | element (v : String)
  | id (v : String)
  | cls (v : String)
  | attr (v : String)
  | pseudoClass (v : String)
  | pseudoElement (v : String)
deriving DecidableEq, Repr

/-- Run one append operation on a builder state. -/
def applyOp (s : Test) (op : Op) : Test × Option String :=
  match op with
  | .element v => s.element v
  | .id v => s.id v
  | .cls v => s.cls v
  | .attr v => s.attr v
  | .pseudoClass v => s.pseudoClass v
  | .pseudoElement v => s.pseudoElement v

/-- Run a chain of append operations, giving the final state when every call
succeeds and `none` as soon as one throws. -/
def runOk (s : Test) : List Op → Option Test
  | [] => some s
  | op :: ops =>
    match applyOp s op with
    | (s', none) => runOk s' ops
    | (_, some _) => none

/-- Number of `id` appends in a chain. -/
def countId : List Op → Nat
  | [] => 0
  | .id _ :: ops => countId ops + 1
  | _ :: ops => countId ops

/-- Number of `element` appends in a chain. -/
def countElement : List Op → Nat
  | [] => 0
  | .element _ :: ops => countElement ops + 1
  | _ :: ops => countElement ops

/-- Number of `pseudoElement` appends in a chain. -/
def countPseudoElement : List Op → Nat
  | [] => 0
  | .pseudoElement _ :: ops => countPseudoElement ops + 1
  | _ :: ops => countPseudoElement ops

/-- Spec-side rendering of a single fragment, following the words of the
specification: no prefix for element-type, `#` for id, `.` for class,
`[...]` wrapping for attribute, `:` for pseudo-class, `::` for
pseudo-element. -/
def renderFragmentSpec : Op → String
  | .element v => v
  | .id v => "#" ++ v
  | .cls v => "." ++ v
  | .attr v => "[" ++ v ++ "]"
  | .pseudoClass v => ":" ++ v
  | .pseudoElement v => "::" ++ v

/-- Spec-side rendering of a chain: concatenation of the fragments in append
order. -/
def renderSpec : List Op → String
  | [] => ""
  | op :: ops => renderFragmentSpec op ++ renderSpec ops

/-! ## The Rectangle factory -/

/-- The object returned by `Rectangle(width, height)`; numbers are modelled
as integers. -/
structure Rectangle where
  width : Int
  height : Int
deriving DecidableEq, Repr

/-- `getArea()`: returns `this.width * this.height`, read from the instance
fields at call time. -/
def Rectangle.getArea (r : Rectangle) : Int := r.width * r.height

/-! ## The JSON codec (getJSON and fromJSON)

The source functions are one-line wrappers over the host JSON builtins
(`JSON.stringify`, `JSON.parse`, `Object.setPrototypeOf`), which are not
part of the repository.  Following section 4.2 of the specification, the
codec is modelled over structural values (objects, arrays, primitives) with
numbers restricted to integers, and the textual form is the canonical
encoding that the stringifier produces (no whitespace). -/

/-- Opening brace character, written through its code point. -/
def braceOpen : Char := Char.ofNat 123

/-- Closing brace character, written through its code point. -/
def braceClose : Char := Char.ofNat 125

mutual
/-- Modelled from the spec: the structural values handled by the missing
host codec (objects, arrays, primitives), numbers restricted to integers. -/
inductive JsonValue where
  | null : JsonValue
  | boolean (b : Bool) : JsonValue
  | num (n : Int) : JsonValue
  | str (s : String) : JsonValue
  | arr (xs : JsonList) : JsonValue
  | obj (fs : JsonFields) : JsonValue
/-- A list of array elements. -/
inductive JsonList where
  | nil : JsonList
  | cons (v : JsonValue) (tl : JsonList) : JsonList
/-- A list of object fields (key and value pairs, in insertion order). -/
inductive JsonFields where
  | nil : JsonFields
  | cons (k : String) (v : JsonValue) (tl : JsonFields) : JsonFields
end

/-- The decimal digit character for a value below ten. -/
def digitChar : Nat → Char
  | 0 => '0' | 1 => '1' | 2 => '2' | 3 => '3' | 4 => '4'
  | 5 => '5' | 6 => '6' | 7 => '7' | 8 => '8' | 9 => '9'
  | _ => '*'

/-- The numeric value of a decimal digit character (ten for other input). -/
def digitVal (c : Char) : Nat :=
  if c = '0' then 0 else if c = '1' then 1 else if c = '2' then 2
  else if c = '3' then 3 else if c = '4' then 4 else if c = '5' then 5
  else if c = '6' then 6 else if c = '7' then 7 else if c = '8' then 8
  else if c = '9' then 9 else 10

/-- Whether a character is a decimal digit. -/
def isDigitChar (c : Char) : Bool := decide (digitVal c < 10)

/-- Worker for the decimal digits of a natural number: structural recursion
on a fuel bound that dominates the number. -/
def natDigitsGo : Nat → Nat → List Char
  | 0, _ => []
  | fuel + 1, n =>
    if n < 10 then [digitChar n]
    else natDigitsGo fuel (n / 10) ++ [digitChar (n % 10)]

/-- The decimal digits of a natural number, most significant first. -/
def natDigits (n : Nat) : List Char := natDigitsGo (n + 1) n

/-- The natural number denoted by a list of decimal digits. -/
def digitsToNat (ds : List Char) : Nat :=
  ds.foldl (fun a c => 10 * a + digitVal c) 0

/-- The decimal encoding of an integer. -/
def numChars (n : Int) : List Char :=
  if n < 0 then '-' :: natDigits (-n).toNat else natDigits n.toNat

/-- Escaping of one character inside a string literal: quote and backslash
take a backslash prefix. -/
def escapeChar (c : Char) : List Char :=
  if c = '\"' ∨ c = '\\' then ['\\', c] else [c]

/-- Escaping of a character list. -/
def escapeChars : List Char → List Char
  | [] => []
  | c :: cs => escapeChar c ++ escapeChars cs

/-- The encoding of an object key: a quoted escaped string literal. -/
def keyChars (k : String) : List Char := '\"' :: escapeChars k.data ++ ['\"']

mutual
/-- Modelled from the spec: the canonical textual encoding of a value, as
the missing host stringifier produces it (no whitespace, fragments in
order). -/
def stringifyChars : JsonValue → List Char
  | .null => ['n', 'u', 'l', 'l']
  | .boolean true => ['t', 'r', 'u', 'e']
  | .boolean false => ['f', 'a', 'l', 's', 'e']
  | .num n => numChars n
  | .str s => '\"' :: escapeChars s.data ++ ['\"']
  | .arr xs => '[' :: stringifyList xs ++ [']']
  | .obj fs => braceOpen :: stringifyObjFields fs ++ [braceClose]
/-- Encoding of the comma-separated element list of an array. -/
def stringifyList : JsonList → List Char
  | .nil => []
  | .cons v tl => stringifyChars v ++ stringifyRestElems tl
/-- Encoding of the elements after the first one, each preceded by a comma. -/
def stringifyRestElems : JsonList → List Char
  | .nil => []
  | .cons v tl => ',' :: stringifyChars v ++ stringifyRestElems tl
/-- Encoding of the comma-separated field list of an object. -/
def stringifyObjFields : JsonFields → List Char
  | .nil => []
  | .cons k v tl => keyChars k ++ ':' :: stringifyChars v ++ stringifyRestFields tl
/-- Encoding of the fields after the first one, each preceded by a comma. -/
def stringifyRestFields : JsonFields → List Char
  | .nil => []
  | .cons k v tl => ',' :: keyChars k ++ ':' :: stringifyChars v ++ stringifyRestFields tl
end

/-- Modelled from the spec: `getJSON(obj)` returns the canonical textual
encoding of the value (the missing host stringifier applied to it). -/
def getJSON (v : JsonValue) : String := String.mk (stringifyChars v)

/-- Consume an expected token from the front of the input. -/
def expectChars : List Char → List Char → Option (List Char)
  | [], cs => some cs
  | _ :: _, [] => none
  | t :: ts, c :: cs => if c = t then expectChars ts cs else none

/-- Parse the body of a string literal after the opening quote: the decoded
characters and the input after the closing quote. -/
def parseStrBody : List Char → Option (List Char × List Char)
  | [] => none
  | c :: rest =>
    if c = '\"' then some ([], rest)
    else if c = '\\' then
      match rest with
      | [] => none
      | d :: rest2 =>
        if d = '\"' ∨ d = '\\' then
          match parseStrBody rest2 with
          | some (s, r) => some (d :: s, r)
          | none => none
        else none
    else
      match parseStrBody rest with
      | some (s, r) => some (c :: s, r)
      | none => none

/-- Parse a maximal run of decimal digits, rejecting an empty run and a
leading zero in a multi-digit run. -/
def parseNat (cs : List Char) : Option (Nat × List Char) :=
  match cs.takeWhile isDigitChar with
  | [] => none
  | d :: ds =>
    if d = '0' ∧ ds ≠ [] then none
    else some (digitsToNat (d :: ds), cs.dropWhile isDigitChar)

/-- Parse an integer: an optional minus sign followed by digits, rejecting a
minus sign in front of zero. -/
def parseNumber (cs : List Char) : Option (Int × List Char) :=
  match cs with
  | [] => none
  | c :: rest =>
    if c = '-' then
      match parseNat rest with
      | some (m, r) => if m = 0 then none else some (-(m : Int), r)
      | none => none
    else
      match parseNat cs with
      | some (m, r) => some ((m : Int), r)
      | none => none

mutual
/-- Modelled from the spec: the decoder of the missing host parser, a
recursive descent over the canonical encoding, with a fuel bound on the
nesting depth. -/
def parseVal : Nat → List Char → Option (JsonValue × List Char)
  | 0, _ => none
  | _ + 1, [] => none
  | fuel + 1, c :: rest =>
    if c = 'n' then
      match expectChars ['u', 'l', 'l'] rest with
      | some r => some (.null, r)
      | none => none
    else if c = 't' then
      match expectChars ['r', 'u', 'e'] rest with
      | some r => some (.boolean true, r)
      | none => none
    else if c = 'f' then
      match expectChars ['a', 'l', 's', 'e'] rest with
      | some r => some (.boolean false, r)
      | none => none
    else if c = '\"' then
      match parseStrBody rest with
      | some (s, r) => some (.str (String.mk s), r)
      | none => none
    else if c = '[' then
      match rest with
      | [] => none
      | d :: r =>
        if d = ']' then some (.arr .nil, r)
        else
          match parseElems fuel (d :: r) with
          | some (xs, r2) => some (.arr xs, r2)
          | none => none
    else if c = braceOpen then
      match rest with
      | [] => none
      | d :: r =>
        if d = braceClose then some (.obj .nil, r)
        else
          match parseFields fuel (d :: r) with
          | some (fs, r2) => some (.obj fs, r2)
          | none => none
    else
      match parseNumber (c :: rest) with
      | some (n, r) => some (.num n, r)
      | none => none
/-- Parse one or more comma-separated elements followed by the closing
bracket. -/
def parseElems : Nat → List Char → Option (JsonList × List Char)
  | 0, _ => none
  | fuel + 1, cs =>
    match parseVal fuel cs with
    | none => none
    | some (v, r) =>
      match r with
      | [] => none
      | d :: r2 =>
        if d = ',' then
          match parseElems fuel r2 with
          | some (tl, r3) => some (.cons v tl, r3)
          | none => none
        else if d = ']' then some (.cons v .nil, r2)
        else none
/-- Parse one or more comma-separated key and value pairs followed by the
closing brace. -/
def parseFields : Nat → List Char → Option (JsonFields × List Char)
  | 0, _ => none
  | fuel + 1, cs =>
    match cs with
    | [] => none
    | c :: rest =>
      if c = '\"' then
        match parseStrBody rest with
        | none => none
        | some (k, r) =>
          match r with
          | [] => none
          | d :: r2 =>
            if d = ':' then
              match parseVal fuel r2 with
              | none => none
              | some (v, r3) =>
                match r3 with
                | [] => none
                | e :: r4 =>
                  if e = ',' then
                    match parseFields fuel r4 with
                    | some (tl, r5) => some (.cons (String.mk k) v tl, r5)
                    | none => none
                  else if e = braceClose then some (.cons (String.mk k) v .nil, r4)
                  else none
            else none
      else none
end

/-- Modelled from the spec: the missing host parser applied to a whole
text; fails when the text is not a well-formed encoding or leaves trailing
input. -/
def parseJson (s : String) : Option JsonValue :=
  match parseVal (s.data.length + 1) s.data with
  | some (v, []) => some v
  | _ => none

/-- A parsed value together with the behavior template attached to it, the
result of `Object.setPrototypeOf(JSON.parse(json), proto)`. -/
structure ProtoObject (P : Type) where
  fields : JsonValue
  proto : P

/-- `fromJSON(proto, json)`: parse the text and attach the given behavior
template to the parsed value. -/
def fromJSON {P : Type} (proto : P) (json : String) : Option (ProtoObject P) :=
  (parseJson json).map fun v => { fields := v, proto := proto }

/-- Field access on a parsed object by key. -/
def JsonFields.lookup : JsonFields → String → Option JsonValue
  | .nil, _ => none
  | .cons k v tl, key => if k = key then some v else tl.lookup key

/-- Modelled from the spec: a concrete behavior template (the method set of
`Circle.prototype` in the example of the source comment). -/
structure CircleBehaviors where
  describe : String
deriving DecidableEq

/-- The circle behavior template of the example. -/
def CircleTemplate : CircleBehaviors := { describe := "circle" }

mutual
/-- Structural size of a value, the induction measure for completeness. -/
def jsonSizeV : JsonValue → Nat
  | .null => 1
  | .boolean _ => 1
  | .num _ => 1
  | .str _ => 1
  | .arr xs => 1 + jsonSizeL xs
  | .obj fs => 1 + jsonSizeF fs
/-- Structural size of an element list. -/
def jsonSizeL : JsonList → Nat
  | .nil => 1
  | .cons v tl => 1 + jsonSizeV v + jsonSizeL tl
/-- Structural size of a field list. -/
def jsonSizeF : JsonFields → Nat
  | .nil => 1
  | .cons _ v tl => 1 + jsonSizeV v + jsonSizeF tl
end

/-! ## Lemmas about the builder -/

theorem Test.element_ok {s : Test} {v : String} {s' : Test}
    (h : s.element v = (s', none)) :
    s' = ⟨s.string ++ v, s.idc, s.selector + 1, s.psel, "element"⟩ := by
  simp only [Test.element] at h
  split at h
  · simp at h
  · split at h
    · simp at h
    · exact (congrArg Prod.fst h).symm

theorem Test.id_ok {s : Test} {v : String} {s' : Test}
    (h : s.id v = (s', none)) :
    s' = ⟨s.string ++ "#" ++ v, s.idc + 1, s.selector, s.psel, "id"⟩ := by
  simp only [Test.id] at h
  split at h
  · simp at h
  · split at h
    · simp at h
    · split at h
      · simp at h
      · exact (congrArg Prod.fst h).symm

theorem Test.cls_ok {s : Test} {v : String} {s' : Test}
    (h : s.cls v = (s', none)) :
    s' = ⟨s.string ++ "." ++ v, s.idc, s.selector, s.psel, "id"⟩ := by
  simp only [Test.cls] at h
  split at h
  · simp at h
  · exact (congrArg Prod.fst h).symm

theorem Test.attr_ok {s : Test} {v : String} {s' : Test}
    (h : s.attr v = (s', none)) :
    s' = ⟨s.string ++ "[" ++ v ++ "]", s.idc, s.selector, s.psel, "attr"⟩ := by
  simp only [Test.attr] at h
  split at h
  · simp at h
  · exact (congrArg Prod.fst h).symm

theorem Test.pseudoClass_ok {s : Test} {v : String} {s' : Test}
    (h : s.pseudoClass v = (s', none)) :
    s' = ⟨s.string ++ ":" ++ v, s.idc, s.selector, s.psel, "pscl"⟩ := by
  simp only [Test.pseudoClass] at h
  split at h
  · simp at h
  · exact (congrArg Prod.fst h).symm

theorem Test.pseudoElement_ok {s : Test} {v : String} {s' : Test}
    (h : s.pseudoElement v = (s', none)) :
    s' = ⟨s.string ++ "::" ++ v, s.idc, s.selector, s.psel + 1, "psel"⟩ := by
  simp only [Test.pseudoElement] at h
  split at h
  · simp at h
  · exact (congrArg Prod.fst h).symm

theorem applyOp_ok_counters (s : Test) (op : Op) (s' : Test)
    (h : applyOp s op = (s', none)) :
    s'.idc = s.idc + countId [op] ∧
    s'.selector = s.selector + countElement [op] ∧
    s'.psel = s.psel + countPseudoElement [op] := by
  cases op with
  | element v => rw [Test.element_ok h]; simp [countId, countElement, countPseudoElement]
  | id v => rw [Test.id_ok h]; simp [countId, countElement, countPseudoElement]
  | cls v => rw [Test.cls_ok h]; simp [countId, countElement, countPseudoElement]
  | attr v => rw [Test.attr_ok h]; simp [countId, countElement, countPseudoElement]
  | pseudoClass v => rw [Test.pseudoClass_ok h]; simp [countId, countElement, countPseudoElement]
  | pseudoElement v => rw [Test.pseudoElement_ok h]; simp [countId, countElement, countPseudoElement]

theorem runOk_counters (s : Test) (ops : List Op) (s' : Test)
    (h : runOk s ops = some s') :
    s'.idc = s.idc + countId ops ∧
    s'.selector = s.selector + countElement ops ∧
    s'.psel = s.psel + countPseudoElement ops := by
  induction ops generalizing s with
  | nil =>
    simp only [runOk] at h
    cases h
    simp [countId, countElement, countPseudoElement]
  | cons op ops ih =>
    simp only [runOk] at h
    split at h
    next s1 heq =>
      obtain ⟨h1, h2, h3⟩ := applyOp_ok_counters s op s1 heq
      obtain ⟨g1, g2, g3⟩ := ih s1 h
      refine ⟨?_, ?_, ?_⟩
      · rw [g1, h1]; cases op <;> (simp only [countId]; omega)
      · rw [g2, h2]; cases op <;> (simp only [countElement]; omega)
      · rw [g3, h3]; cases op <;> (simp only [countPseudoElement]; omega)
    next => exact absurd h (by simp)

theorem applyOp_ok_string (s : Test) (op : Op) (s' : Test)
    (h : applyOp s op = (s', none)) :
    s'.string = s.string ++ renderFragmentSpec op := by
  cases op with
  | element v => rw [Test.element_ok h]; simp [renderFragmentSpec]
  | id v => rw [Test.id_ok h]; simp [renderFragmentSpec, String.append_assoc]
  | cls v => rw [Test.cls_ok h]; simp [renderFragmentSpec, String.append_assoc]
  | attr v => rw [Test.attr_ok h]; simp [renderFragmentSpec, String.append_assoc]
  | pseudoClass v => rw [Test.pseudoClass_ok h]; simp [renderFragmentSpec, String.append_assoc]
  | pseudoElement v => rw [Test.pseudoElement_ok h]; simp [renderFragmentSpec, String.append_assoc]

theorem runOk_string (s : Test) (ops : List Op) (s' : Test)
    (h : runOk s ops = some s') :
    s'.string = s.string ++ renderSpec ops := by
  induction ops generalizing s with
  | nil =>
    simp only [runOk] at h
    cases h
    rw [renderSpec, String.append_empty]
  | cons op ops ih =>
    simp only [runOk] at h
    split at h
    next s1 heq =>
      have h1 := applyOp_ok_string s op s1 heq
      have g1 := ih s1 h
      rw [g1, h1, renderSpec, String.append_assoc]
    next => exact absurd h (by simp)

theorem Test.element_eq (s : Test) (v : String) :
    s.element v =
      if s.idc = 2 ∨ s.selector + 1 = 2 ∨ s.psel = 2 then
        ({ s with selector := s.selector + 1 }, some cardinalityMsg)
      else if s.prev ≠ "element" ∧ s.prev ≠ "" then
        ({ s with selector := s.selector + 1 }, some orderMsg)
      else
        ({ s with
            selector := s.selector + 1, prev := "element", string := s.string ++ v }, none) := by
  simp only [Test.element, Test.exception1, Test.exception2]
  split_ifs <;> simp_all

theorem Test.id_eq (s : Test) (v : String) :
    s.id v =
      if s.idc + 1 = 2 ∨ s.selector = 2 ∨ s.psel = 2 then
        ({ s with idc := s.idc + 1 }, some cardinalityMsg)
      else if s.prev ≠ "element" ∧ s.prev ≠ "" then
        ({ s with idc := s.idc + 1 }, some orderMsg)
      else if s.prev = "psel" then
        ({ s with idc := s.idc + 1 }, some orderMsg)
      else
        ({ s with
            idc := s.idc + 1, prev := "id", string := s.string ++ "#" ++ v }, none) := by
  simp only [Test.id, Test.exception1, Test.exception2]
  split_ifs <;> simp_all

theorem Test.pseudoElement_eq (s : Test) (v : String) :
    s.pseudoElement v =
      if s.idc = 2 ∨ s.selector = 2 ∨ s.psel + 1 = 2 then
        ({ s with prev := "psel", psel := s.psel + 1 }, some cardinalityMsg)
      else
        ({ s with
            prev := "psel", psel := s.psel + 1, string := s.string ++ "::" ++ v }, none) := by
  simp only [Test.pseudoElement, Test.exception1]
  split_ifs <;> simp_all

theorem cardinalityMsg_ne_orderMsg : cardinalityMsg ≠ orderMsg := by decide

/-! ## Claim theorems for the selector builder and the rectangle factory -/

/-- Claim C1, evaluated at the failing input: the code accepts
`cssSelectorBuilder.pseudoClass(x).class(y)` without any error and renders
`:x.y`, although the class category is strictly less than the pseudo-class
category; the claimed OrderError is not raised, contradicting both the claim
and the order documented by the error message of the code itself. -/
theorem c1_class_after_pseudoClass_appends :
    (cssSelectorBuilder.pseudoClass "x").2 = none ∧
    ((cssSelectorBuilder.pseudoClass "x").1.cls "y").2 = none ∧
    ((cssSelectorBuilder.pseudoClass "x").1.cls "y").1.stringify = ":x.y" := by
  refine ⟨rfl, by decide, by decide⟩

/-- Claim C2: on every builder state reached from a fresh instance by a chain
of successful appends containing exactly one `id` (resp. `element`,
`pseudoElement`) append, a second append of the same fragment returns the
CardinalityError message. -/
theorem c2_second_append_cardinality (ops : List Op) (s : Test)
    (h : runOk (newTest "") ops = some s) :
    (countId ops = 1 → ∀ v, (s.id v).2 = some cardinalityMsg) ∧
    (countElement ops = 1 → ∀ v, (s.element v).2 = some cardinalityMsg) ∧
    (countPseudoElement ops = 1 → ∀ v, (s.pseudoElement v).2 = some cardinalityMsg) := by
  obtain ⟨h1, h2, h3⟩ := runOk_counters (newTest "") ops s h
  simp only [newTest] at h1 h2 h3
  refine ⟨?_, ?_, ?_⟩
  · intro hc v
    rw [Test.id_eq]
    rw [if_pos (by omega)]
  · intro hc v
    rw [Test.element_eq]
    rw [if_pos (by omega)]
  · intro hc v
    rw [Test.pseudoElement_eq]
    rw [if_pos (by omega)]

/-- Witness for C2 at the concrete chain of the spec: `id(x).id(y)` fails
with the CardinalityError message. -/
theorem c2_witness :
    (Test.id (cssSelectorBuilder.id "x").1 "y").2 = some cardinalityMsg :=
  (c2_second_append_cardinality [Op.id "x"] (cssSelectorBuilder.id "x").1
    (by decide)).1 (by decide) "y"

/-- Claim C3: after any chain of successful appends from a fresh instance,
`stringify` returns exactly the concatenation, in append order, of the
fragments rendered with their category prefixes, with no further
transformation. -/
theorem c3_render_concatenation (ops : List Op) (s : Test)
    (h : runOk (newTest "") ops = some s) :
    s.stringify = renderSpec ops := by
  have hs := runOk_string (newTest "") ops s h
  rw [Test.stringify, hs]
  exact String.empty_append _

/-- Witness for C3 at the two concrete chains of the spec:
`id(main).class(container).class(editable)` renders
`#main.container.editable` and `element(a).attr(href$=".png").pseudoClass(focus)`
renders `a[href$=".png"]:focus`. -/
theorem c3_witness :
    (∃ s, runOk (newTest "") [Op.id "main", Op.cls "container", Op.cls "editable"]
        = some s ∧ s.stringify = "#main.container.editable") ∧
    (∃ s, runOk (newTest "")
        [Op.element "a", Op.attr "href$=\".png\"", Op.pseudoClass "focus"]
        = some s ∧ s.stringify = "a[href$=\".png\"]:focus") :=
  ⟨⟨⟨"#main.container.editable", 1, 0, 0, "id"⟩, by decide,
    (c3_render_concatenation [Op.id "main", Op.cls "container", Op.cls "editable"]
      ⟨"#main.container.editable", 1, 0, 0, "id"⟩ (by decide)).trans (by decide)⟩,
   ⟨⟨"a[href$=\".png\"]:focus", 0, 1, 0, "pscl"⟩, by decide,
    (c3_render_concatenation [Op.element "a", Op.attr "href$=\".png\"", Op.pseudoClass "focus"]
      ⟨"a[href$=\".png\"]:focus", 0, 1, 0, "pscl"⟩ (by decide)).trans (by decide)⟩⟩

/-- Claim C4: for any two already-built selectors and any combinator string,
the facade combine renders the left text, a space, the combinator verbatim,
a space, and the right text, and never throws; no validation of the
combinator takes place. -/
theorem c4_combine_renders (a b : Test) (c : String) :
    (cssSelectorBuilder.combine a c b).1.stringify
      = a.stringify ++ " " ++ c ++ " " ++ b.stringify ∧
    (cssSelectorBuilder.combine a c b).2 = none := by
  constructor
  · simp only [cssSelectorBuilder.combine, Test.combine, Test.stringify, newTest]
    rw [String.empty_append]
  · rfl

/-- Claim C8: the rectangle factory exposes `width` and `height` equal to its
arguments and a `getArea` computed from the fields at call time (so updating
a field changes the result); in particular `Rectangle(10,20)` has area 200. -/
theorem c8_rectangle (w h : Int) :
    (Rectangle.mk w h).width = w ∧
    (Rectangle.mk w h).height = h ∧
    (Rectangle.mk w h).getArea = w * h ∧
    (∀ (r : Rectangle) (w' : Int), ({ r with width := w' } : Rectangle).getArea = w' * r.height) ∧
    (Rectangle.mk 10 20).getArea = 200 :=
  ⟨rfl, rfl, rfl, fun _ _ => rfl, by decide⟩

/-- Claim C9: every facade call builds on a fresh `new Test(empty)` state
(empty accumulated text, zero counters, empty last-category marker), so
separately started chains share no state; in particular two separate chains
both starting with `id` both succeed. -/
theorem c9_fresh_builder_state :
    (∀ v, cssSelectorBuilder.element v = Test.element (newTest "") v) ∧
    (∀ v, cssSelectorBuilder.id v = Test.id (newTest "") v) ∧
    (∀ v, cssSelectorBuilder.cls v = Test.cls (newTest "") v) ∧
    (∀ v, cssSelectorBuilder.attr v = Test.attr (newTest "") v) ∧
    (∀ v, cssSelectorBuilder.pseudoClass v = Test.pseudoClass (newTest "") v) ∧
    (∀ v, cssSelectorBuilder.pseudoElement v = Test.pseudoElement (newTest "") v) ∧
    (∀ a c b, cssSelectorBuilder.combine a c b = Test.combine (newTest "") a c b) ∧
    newTest "" = ⟨"", 0, 0, 0, ""⟩ ∧
    (∀ v w, (cssSelectorBuilder.id v).2 = none ∧ (cssSelectorBuilder.id w).2 = none) :=
  ⟨fun _ => rfl, fun _ => rfl, fun _ => rfl, fun _ => rfl, fun _ => rfl,
   fun _ => rfl, fun _ _ _ => rfl, rfl, fun _ _ => ⟨rfl, rfl⟩⟩

/-- Counterexample to claim C10: after `id(x)` and a second `id(y)` whose
CardinalityError is caught, a third `id(z)` on the same instance does throw:
it returns the OrderError message rather than appending its text. -/
theorem c10_counterexample :
    ((cssSelectorBuilder.id "x").1.id "y").2 = some cardinalityMsg ∧
    (((cssSelectorBuilder.id "x").1.id "y").1.id "z").2 = some orderMsg := by
  refine ⟨by decide, by decide⟩

/-- Claim C10 as amended: the shared cardinality check throws exactly when
one of the three counters equals exactly 2 (the called fragment counter
having been incremented before the check); after a caught second-append
CardinalityError, a third `element` or `pseudoElement` append does not throw
and appends its text, while a third `id` append throws the OrderError
because the order marker still holds `id`. -/
theorem c10_amended_cardinality_check (s : Test) (v : String) :
    ((s.id v).2 = some cardinalityMsg ↔ s.idc = 1 ∨ s.selector = 2 ∨ s.psel = 2) ∧
    ((s.element v).2 = some cardinalityMsg ↔ s.selector = 1 ∨ s.idc = 2 ∨ s.psel = 2) ∧
    ((s.pseudoElement v).2 = some cardinalityMsg ↔ s.psel = 1 ∨ s.idc = 2 ∨ s.selector = 2) ∧
    (s.selector = 2 → s.idc ≠ 2 → s.psel ≠ 2 → s.prev = "element" →
      s.element v = ({ s with
        selector := 3, prev := "element", string := s.string ++ v }, none)) ∧
    (s.psel = 2 → s.idc ≠ 2 → s.selector ≠ 2 →
      s.pseudoElement v = ({ s with
        psel := 3, prev := "psel", string := s.string ++ "::" ++ v }, none)) ∧
    (s.idc = 2 → s.selector ≠ 2 → s.psel ≠ 2 → s.prev = "id" →
      (s.id v).2 = some orderMsg) := by
  have hmsg : cardinalityMsg ≠ orderMsg := by decide
  refine ⟨?_, ?_, ?_, ?_, ?_, ?_⟩
  · rw [Test.id_eq]
    split_ifs with h1 h2 h3
    · simp only [true_iff]
      omega
    · simp only [Option.some.injEq, Ne.symm hmsg, false_iff]
      omega
    · simp only [Option.some.injEq, Ne.symm hmsg, false_iff]
      omega
    · simp only [reduceCtorEq, false_iff]
      omega
  · rw [Test.element_eq]
    split_ifs with h1 h2
    · simp only [true_iff]
      omega
    · simp only [Option.some.injEq, Ne.symm hmsg, false_iff]
      omega
    · simp only [reduceCtorEq, false_iff]
      omega
  · rw [Test.pseudoElement_eq]
    split_ifs with h1
    · simp only [true_iff]
      omega
    · simp only [reduceCtorEq, false_iff]
      omega
  · intro hsel hidc hpsel hprev
    rw [Test.element_eq, if_neg (by omega), if_neg (by simp [hprev])]
    simp [hsel]
  · intro hps hidc hsel
    rw [Test.pseudoElement_eq, if_neg (by omega)]
    simp [hps]
  · intro hidc hsel hps hprev
    rw [Test.id_eq, if_neg (by omega), if_pos (by simp [hprev])]

/-- Witness for the amended C10 at a concrete instance: the state reached by
`id(x)` then a caught second `id(y)`, on which a third `id(z)` returns the
OrderError message. -/
theorem c10_witness :
    (Test.id ⟨"#x", 2, 0, 0, "id"⟩ "z").2 = some orderMsg :=
  (c10_amended_cardinality_check ⟨"#x", 2, 0, 0, "id"⟩ "z").2.2.2.2.2
    rfl (by decide) (by decide) rfl

/-! ## Lemmas about decimal digits -/

theorem isDigitChar_iff (c : Char) :
    isDigitChar c = true ↔
      (c = '0' ∨ c = '1' ∨ c = '2' ∨ c = '3' ∨ c = '4' ∨ c = '5' ∨ c = '6' ∨
       c = '7' ∨ c = '8' ∨ c = '9') := by
  unfold isDigitChar digitVal
  split_ifs with h0 h1 h2 h3 h4 h5 h6 h7 h8 h9 <;> simp_all

theorem digitVal_digitChar {n : Nat} (h : n < 10) : digitVal (digitChar n) = n := by
  interval_cases n <;> decide

theorem isDigitChar_digitChar {n : Nat} (h : n < 10) :
    isDigitChar (digitChar n) = true := by
  interval_cases n <;> decide

theorem digitChar_digitVal {c : Char} (h : isDigitChar c = true) :
    digitChar (digitVal c) = c := by
  rw [isDigitChar_iff] at h
  rcases h with h | h | h | h | h | h | h | h | h | h <;> subst h <;> decide

theorem digitVal_lt_ten {c : Char} (h : isDigitChar c = true) : digitVal c < 10 := by
  rw [isDigitChar_iff] at h
  rcases h with h | h | h | h | h | h | h | h | h | h <;> subst h <;> decide

theorem digitVal_pos {c : Char} (h : isDigitChar c = true) (hz : c ≠ '0') :
    1 ≤ digitVal c := by
  rw [isDigitChar_iff] at h
  rcases h with h | h | h | h | h | h | h | h | h | h <;> subst h <;>
    first
    | exact absurd rfl hz
    | decide

theorem digit_ne {c : Char} (h : isDigitChar c = true) :
    c ≠ 'n' ∧ c ≠ 't' ∧ c ≠ 'f' ∧ c ≠ '\"' ∧ c ≠ '[' ∧ c ≠ braceOpen ∧
    c ≠ '-' ∧ c ≠ ']' ∧ c ≠ braceClose ∧ c ≠ ',' ∧ c ≠ ':' := by
  rw [isDigitChar_iff] at h
  rcases h with h | h | h | h | h | h | h | h | h | h <;> subst h <;> decide

/-! ## Lemmas about the decimal encoding of numbers -/

theorem natDigitsGo_fuel_irrel (n : Nat) : ∀ f g, n < f → n < g →
    natDigitsGo f n = natDigitsGo g n := by
  induction n using Nat.strong_induction_on with
  | _ n ih =>
    intro f g hf hg
    match f, g with
    | f + 1, g + 1 =>
      simp only [natDigitsGo]
      split_ifs with h
      · rfl
      · rw [ih (n / 10) (Nat.div_lt_self (by omega) (by omega)) f g (by omega) (by omega)]

theorem natDigits_eq (n : Nat) :
    natDigits n =
      if n < 10 then [digitChar n]
      else natDigits (n / 10) ++ [digitChar (n % 10)] := by
  unfold natDigits
  conv_lhs => rw [natDigitsGo]
  split_ifs with h
  · rfl
  · rw [natDigitsGo_fuel_irrel (n / 10) n (n / 10 + 1)
      (by omega) (by omega)]

theorem natDigits_ne_nil (n : Nat) : natDigits n ≠ [] := by
  rw [natDigits_eq]
  split_ifs <;> simp

theorem mem_natDigits (n : Nat) : ∀ c ∈ natDigits n, isDigitChar c = true := by
  induction n using Nat.strong_induction_on with
  | _ n ih =>
    intro c hc
    rw [natDigits_eq] at hc
    split_ifs at hc with h
    · simp at hc
      subst hc
      exact isDigitChar_digitChar h
    · rw [List.mem_append] at hc
      rcases hc with hc | hc
      · exact ih (n / 10) (Nat.div_lt_self (by omega) (by omega)) c hc
      · simp at hc
        subst hc
        exact isDigitChar_digitChar (Nat.mod_lt _ (by omega))

theorem digitsToNat_append_singleton (ds : List Char) (c : Char) :
    digitsToNat (ds ++ [c]) = 10 * digitsToNat ds + digitVal c := by
  simp [digitsToNat, List.foldl_append]

theorem digitsToNat_natDigits (n : Nat) : digitsToNat (natDigits n) = n := by
  induction n using Nat.strong_induction_on with
  | _ n ih =>
    rw [natDigits_eq]
    split_ifs with h
    · simp [digitsToNat, digitVal_digitChar h]
    · rw [digitsToNat_append_singleton,
        ih (n / 10) (Nat.div_lt_self (by omega) (by omega)),
        digitVal_digitChar (Nat.mod_lt _ (by omega))]
      omega

theorem natDigits_head_ne_zero (n : Nat) (hn : n ≠ 0) :
    ∀ d ds, natDigits n = d :: ds → d ≠ '0' := by
  induction n using Nat.strong_induction_on with
  | _ n ih =>
    intro d ds hds
    rw [natDigits_eq] at hds
    split_ifs at hds with h
    · simp at hds
      obtain ⟨h1, _⟩ := hds
      subst h1
      interval_cases n
      · exact absurd rfl hn
      all_goals decide
    · obtain ⟨d0, ds0, h0⟩ : ∃ d0 ds0, natDigits (n / 10) = d0 :: ds0 := by
        cases hnd : natDigits (n / 10) with
        | nil => exact absurd hnd (natDigits_ne_nil _)
        | cons d0 ds0 => exact ⟨d0, ds0, rfl⟩
      rw [h0] at hds
      simp at hds
      obtain ⟨h1, _⟩ := hds
      subst h1
      exact ih (n / 10) (Nat.div_lt_self (by omega) (by omega))
        (by omega) d0 ds0 h0

theorem natDigits_zero : natDigits 0 = ['0'] := rfl

theorem natDigits_mul_add {m d : Nat} (hm : m ≠ 0) (hd : d < 10) :
    natDigits (10 * m + d) = natDigits m ++ [digitChar d] := by
  rw [natDigits_eq (10 * m + d), if_neg (by omega)]
  have h1 : (10 * m + d) / 10 = m := by
    rw [Nat.mul_add_div (by omega), Nat.div_eq_of_lt hd]
    omega
  have h2 : (10 * m + d) % 10 = d := by
    rw [Nat.mul_add_mod, Nat.mod_eq_of_lt hd]
  rw [h1, h2]

theorem digitsToNat_foldl_ge (ds : List Char) :
    ∀ a : Nat, a ≤ ds.foldl (fun x c => 10 * x + digitVal c) a := by
  induction ds with
  | nil => intro a; simp
  | cons c ds ih =>
    intro a
    simp only [List.foldl_cons]
    calc a ≤ 10 * a + digitVal c := by omega
      _ ≤ _ := ih _

theorem digitsToNat_pos {d : Char} (ds : List Char) (hd : isDigitChar d = true)
    (hz : d ≠ '0') : digitsToNat (d :: ds) ≠ 0 := by
  have h1 : 1 ≤ digitVal d := digitVal_pos hd hz
  have h2 : digitVal d ≤ digitsToNat (d :: ds) := by
    have h3 := digitsToNat_foldl_ge ds (10 * 0 + digitVal d)
    simpa [digitsToNat] using h3
  omega

theorem natDigits_digitsToNat :
    ∀ (ds : List Char) (d : Char), (∀ c ∈ d :: ds, isDigitChar c = true) →
      (d = '0' → ds = []) → natDigits (digitsToNat (d :: ds)) = d :: ds := by
  intro ds
  induction ds using List.reverseRecOn with
  | nil =>
    intro d hall _
    have hd := hall d (by simp)
    rw [show digitsToNat [d] = digitVal d by simp [digitsToNat]]
    rw [natDigits_eq, if_pos (digitVal_lt_ten hd), digitChar_digitVal hd]
  | append_singleton xs c ih =>
    intro d hall hz
    have hd : isDigitChar d = true := hall d (by simp)
    have hc : isDigitChar c = true := hall c (by simp)
    have hdz : d ≠ '0' := by
      intro he
      have h0 := hz he
      simp at h0
    have hm : digitsToNat (d :: xs) ≠ 0 := digitsToNat_pos xs hd hdz
    have hsplit : d :: (xs ++ [c]) = (d :: xs) ++ [c] := by simp
    rw [hsplit, digitsToNat_append_singleton,
      natDigits_mul_add hm (digitVal_lt_ten hc),
      ih d (fun x hx => hall x (by simp at hx ⊢; tauto))
        (fun he => absurd he hdz),
      digitChar_digitVal hc]

/-! ## Lemmas about scanning digit runs -/

theorem takeWhile_append_all {p : Char → Bool} {xs : List Char}
    (h : ∀ x ∈ xs, p x = true) (ys : List Char) :
    List.takeWhile p (xs ++ ys) = xs ++ List.takeWhile p ys := by
  induction xs with
  | nil => simp
  | cons x xs ih =>
    simp only [List.cons_append, List.takeWhile_cons]
    rw [h x (by simp)]
    simp [ih (fun y hy => h y (by simp [hy]))]

theorem dropWhile_append_all {p : Char → Bool} {xs : List Char}
    (h : ∀ x ∈ xs, p x = true) (ys : List Char) :
    List.dropWhile p (xs ++ ys) = List.dropWhile p ys := by
  induction xs with
  | nil => simp
  | cons x xs ih =>
    simp only [List.cons_append, List.dropWhile_cons]
    rw [h x (by simp)]
    simp [ih (fun y hy => h y (by simp [hy]))]

theorem takeWhile_eq_nil_of_head {p : Char → Bool} {ys : List Char}
    (h : ∀ c, ys.head? = some c → p c = false) : List.takeWhile p ys = [] := by
  cases ys with
  | nil => rfl
  | cons c ys => simp [List.takeWhile_cons, h c rfl]

theorem dropWhile_eq_self_of_head {p : Char → Bool} {ys : List Char}
    (h : ∀ c, ys.head? = some c → p c = false) : List.dropWhile p ys = ys := by
  cases ys with
  | nil => rfl
  | cons c ys => simp [List.dropWhile_cons, h c rfl]

/-! ## Lemmas about the number parser -/

theorem parseNat_sound {cs : List Char} {m : Nat} {r : List Char}
    (h : parseNat cs = some (m, r)) : cs = natDigits m ++ r := by
  unfold parseNat at h
  cases hds : List.takeWhile isDigitChar cs with
  | nil => rw [hds] at h; simp at h
  | cons d ds =>
    rw [hds] at h
    simp only [] at h
    split_ifs at h with hz
    simp only [Option.some.injEq, Prod.mk.injEq] at h
    obtain ⟨hm, hr⟩ := h
    have hmem : ∀ c ∈ d :: ds, isDigitChar c = true := by
      intro c hcmem
      exact List.mem_takeWhile_imp (by rw [hds]; exact hcmem)
    have hz' : d = '0' → ds = [] := by tauto
    have hnd : natDigits m = d :: ds := by
      rw [← hm]
      exact natDigits_digitsToNat ds d hmem hz'
    rw [hnd, ← hds, ← hr]
    exact (List.takeWhile_append_dropWhile _ _).symm

theorem parseNat_complete (m : Nat) {rest : List Char}
    (hf : ∀ c, rest.head? = some c → isDigitChar c = false) :
    parseNat (natDigits m ++ rest) = some (m, rest) := by
  obtain ⟨d, ds, hds⟩ : ∃ d ds, natDigits m = d :: ds := by
    cases hnd : natDigits m with
    | nil => exact absurd hnd (natDigits_ne_nil _)
    | cons d ds => exact ⟨d, ds, rfl⟩
  have h1 : List.takeWhile isDigitChar (natDigits m ++ rest) = natDigits m := by
    rw [takeWhile_append_all (mem_natDigits m) rest, takeWhile_eq_nil_of_head hf]
    simp
  have h2 : List.dropWhile isDigitChar (natDigits m ++ rest) = rest := by
    rw [dropWhile_append_all (mem_natDigits m) rest]
    exact dropWhile_eq_self_of_head hf
  unfold parseNat
  simp only [h1, h2]
  rw [hds]
  simp only []
  split_ifs with hz
  · exfalso
    by_cases hm : m = 0
    · subst hm
      rw [natDigits_zero] at hds
      simp at hds
      exact hz.2 hds.2
    · exact natDigits_head_ne_zero m hm d ds hds hz.1
  · rw [← hds, digitsToNat_natDigits]

theorem parseNumber_sound {cs : List Char} {n : Int} {r : List Char}
    (h : parseNumber cs = some (n, r)) : cs = numChars n ++ r := by
  unfold parseNumber at h
  cases cs with
  | nil => simp at h
  | cons c rest =>
    simp only [] at h
    split_ifs at h with hminus
    · subst hminus
      cases hp : parseNat rest with
      | none => rw [hp] at h; simp at h
      | some pr =>
        obtain ⟨m, r2⟩ := pr
        rw [hp] at h
        simp only [] at h
        split_ifs at h with hm0
        simp only [Option.some.injEq, Prod.mk.injEq] at h
        obtain ⟨hn, hr⟩ := h
        have hrest := parseNat_sound hp
        have hneg : n < 0 := by omega
        have htn : (-n).toNat = m := by
          rw [← hn]
          simp
        unfold numChars
        rw [if_pos hneg, htn, hrest, ← hr]
        simp
    · cases hp : parseNat (c :: rest) with
      | none => rw [hp] at h; simp at h
      | some pr =>
        obtain ⟨m, r2⟩ := pr
        rw [hp] at h
        simp only [Option.some.injEq, Prod.mk.injEq] at h
        obtain ⟨hn, hr⟩ := h
        have hrest := parseNat_sound hp
        have hnonneg : ¬ n < 0 := by omega
        have htn : n.toNat = m := by
          rw [← hn]
          simp
        unfold numChars
        rw [if_neg hnonneg, htn, ← hr]
        exact hrest

theorem parseNumber_complete (n : Int) {rest : List Char}
    (hf : ∀ c, rest.head? = some c → isDigitChar c = false) :
    parseNumber (numChars n ++ rest) = some (n, rest) := by
  unfold numChars
  split_ifs with hneg
  · show parseNumber ('-' :: natDigits (-n).toNat ++ rest) = some (n, rest)
    unfold parseNumber
    simp only [List.cons_append]
    rw [if_pos trivial, parseNat_complete ((-n).toNat) hf]
    simp only []
    rw [if_neg (by omega)]
    have htn : (((-n).toNat : Nat) : Int) = -n := Int.toNat_of_nonneg (by omega)
    rw [htn]
    simp
  · obtain ⟨d, ds, hds⟩ : ∃ d ds, natDigits n.toNat = d :: ds := by
      cases hnd : natDigits n.toNat with
      | nil => exact absurd hnd (natDigits_ne_nil _)
      | cons d ds => exact ⟨d, ds, rfl⟩
    have hd : isDigitChar d = true := mem_natDigits _ d (by rw [hds]; simp)
    rw [hds]
    simp only [List.cons_append]
    unfold parseNumber
    simp only []
    rw [if_neg ((digit_ne hd).2.2.2.2.2.2.1)]
    rw [show d :: (ds ++ rest) = natDigits n.toNat ++ rest by rw [hds]; simp]
    rw [parseNat_complete n.toNat hf]
    simp only []
    rw [Int.toNat_of_nonneg (by omega)]

/-! ## Lemmas about token and string parsing -/

theorem expectChars_sound : ∀ (ts cs r : List Char),
    expectChars ts cs = some r → cs = ts ++ r := by
  intro ts
  induction ts with
  | nil =>
    intro cs r h
    simp only [expectChars, Option.some.injEq] at h
    simp [h]
  | cons t ts ih =>
    intro cs r h
    cases cs with
    | nil => simp [expectChars] at h
    | cons c cs =>
      simp only [expectChars] at h
      split_ifs at h with hc
      subst hc
      rw [List.cons_append, ih cs r h]

theorem expectChars_complete : ∀ (ts r : List Char), expectChars ts (ts ++ r) = some r := by
  intro ts r
  induction ts with
  | nil => rfl
  | cons t ts ih => simp [expectChars, ih]

theorem parseStrBody_sound_aux : ∀ (N : Nat) (cs : List Char), cs.length ≤ N →
    ∀ s r, parseStrBody cs = some (s, r) → cs = escapeChars s ++ '\"' :: r := by
  intro N
  induction N with
  | zero =>
    intro cs hlen s r h
    cases cs with
    | nil => simp [parseStrBody] at h
    | cons c rest => simp at hlen
  | succ N ih =>
    intro cs hlen s r h
    cases cs with
    | nil => simp [parseStrBody] at h
    | cons c rest =>
      unfold parseStrBody at h
      split_ifs at h with hq hb
      · simp only [Option.some.injEq, Prod.mk.injEq] at h
        obtain ⟨hs, hr⟩ := h
        subst hq
        rw [← hs, ← hr]
        simp [escapeChars]
      · cases rest with
        | nil => simp at h
        | cons d rest2 =>
          simp only [] at h
          split_ifs at h with hd
          cases hp : parseStrBody rest2 with
          | none => rw [hp] at h; simp at h
          | some pr =>
            obtain ⟨s2, r2⟩ := pr
            rw [hp] at h
            simp only [Option.some.injEq, Prod.mk.injEq] at h
            obtain ⟨hs, hr⟩ := h
            have hrec := ih rest2 (by simp at hlen; omega) s2 r2 hp
            subst hb
            rw [← hs, ← hr, hrec]
            simp [escapeChars, escapeChar, hd]
      · cases hp : parseStrBody rest with
        | none => rw [hp] at h; simp at h
        | some pr =>
          obtain ⟨s2, r2⟩ := pr
          rw [hp] at h
          simp only [Option.some.injEq, Prod.mk.injEq] at h
          obtain ⟨hs, hr⟩ := h
          have hrec := ih rest (by simp at hlen; omega) s2 r2 hp
          rw [← hs, ← hr, hrec]
          simp [escapeChars, escapeChar, hq, hb]

theorem parseStrBody_sound {cs s r : List Char} (h : parseStrBody cs = some (s, r)) :
    cs = escapeChars s ++ '\"' :: r :=
  parseStrBody_sound_aux cs.length cs le_rfl s r h

theorem parseStrBody_complete : ∀ (s r : List Char),
    parseStrBody (escapeChars s ++ '\"' :: r) = some (s, r) := by
  intro s
  induction s with
  | nil =>
    intro r
    simp only [escapeChars, List.nil_append]
    unfold parseStrBody
    simp
  | cons c s ih =>
    intro r
    by_cases hsp : c = '\"' ∨ c = '\\'
    · simp only [escapeChars, escapeChar, if_pos hsp, List.cons_append, List.nil_append]
      unfold parseStrBody
      simp [hsp, ih r]
    · push_neg at hsp
      simp only [escapeChars, escapeChar, if_neg (by tauto : ¬(c = '\"' ∨ c = '\\')),
        List.cons_append, List.nil_append]
      unfold parseStrBody
      simp [hsp.1, hsp.2, ih r]

/-! ## Basic facts about the stringifier -/

theorem numChars_ne_nil (n : Int) : numChars n ≠ [] := by
  unfold numChars
  split_ifs
  · simp
  · exact natDigits_ne_nil _

theorem stringifyChars_ne_nil (v : JsonValue) : stringifyChars v ≠ [] := by
  cases v with
  | null => simp [stringifyChars]
  | boolean b => cases b <;> simp [stringifyChars]
  | num n => simpa [stringifyChars] using numChars_ne_nil n
  | str s => simp [stringifyChars]
  | arr xs => simp [stringifyChars]
  | obj fs => simp [stringifyChars]

theorem numChars_head_ne {n : Int} {c : Char} {cs : List Char}
    (h : numChars n = c :: cs) :
    c ≠ 'n' ∧ c ≠ 't' ∧ c ≠ 'f' ∧ c ≠ '\"' ∧ c ≠ '[' ∧ c ≠ braceOpen ∧
    c ≠ ']' ∧ c ≠ braceClose := by
  unfold numChars at h
  split_ifs at h
  · simp at h
    obtain ⟨hc, _⟩ := h
    subst hc
    decide
  · have hd : isDigitChar c = true := mem_natDigits _ c (by rw [h]; simp)
    have hne := digit_ne hd
    tauto

theorem stringify_head_ne {v : JsonValue} {c : Char} {cs : List Char}
    (h : stringifyChars v = c :: cs) : c ≠ ']' ∧ c ≠ braceClose := by
  cases v with
  | null =>
    simp [stringifyChars] at h
    obtain ⟨hc, _⟩ := h
    subst hc
    decide
  | boolean b =>
    cases b <;> simp [stringifyChars] at h <;> obtain ⟨hc, _⟩ := h <;> subst hc <;> decide
  | num n =>
    have := numChars_head_ne (show numChars n = c :: cs by rw [← h]; simp [stringifyChars])
    tauto
  | str s =>
    simp [stringifyChars] at h
    obtain ⟨hc, _⟩ := h
    subst hc
    decide
  | arr xs =>
    simp [stringifyChars] at h
    obtain ⟨hc, _⟩ := h
    subst hc
    decide
  | obj fs =>
    simp [stringifyChars] at h
    obtain ⟨hc, _⟩ := h
    subst hc
    decide

/-! ## Unfolding equations for the fuel-indexed parser -/

theorem parseVal_zero (cs : List Char) : parseVal 0 cs = none := rfl

theorem parseVal_succ_nil (fuel : Nat) : parseVal (fuel + 1) [] = none := rfl

theorem parseVal_succ_cons (fuel : Nat) (c : Char) (rest : List Char) :
    parseVal (fuel + 1) (c :: rest) =
      (if c = 'n' then
        match expectChars ['u', 'l', 'l'] rest with
        | some r => some (.null, r)
        | none => none
      else if c = 't' then
        match expectChars ['r', 'u', 'e'] rest with
        | some r => some (.boolean true, r)
        | none => none
      else if c = 'f' then
        match expectChars ['a', 'l', 's', 'e'] rest with
        | some r => some (.boolean false, r)
        | none => none
      else if c = '\"' then
        match parseStrBody rest with
        | some (s, r) => some (.str (String.mk s), r)
        | none => none
      else if c = '[' then
        match rest with
        | [] => none
        | d :: r =>
          if d = ']' then some (.arr .nil, r)
          else
            match parseElems fuel (d :: r) with
            | some (xs, r2) => some (.arr xs, r2)
            | none => none
      else if c = braceOpen then
        match rest with
        | [] => none
        | d :: r =>
          if d = braceClose then some (.obj .nil, r)
          else
            match parseFields fuel (d :: r) with
            | some (fs, r2) => some (.obj fs, r2)
            | none => none
      else
        match parseNumber (c :: rest) with
        | some (n, r) => some (.num n, r)
        | none => none) := rfl

theorem parseElems_zero (cs : List Char) : parseElems 0 cs = none := rfl

theorem parseElems_succ (fuel : Nat) (cs : List Char) :
    parseElems (fuel + 1) cs =
      (match parseVal fuel cs with
      | none => none
      | some (v, r) =>
        match r with
        | [] => none
        | d :: r2 =>
          if d = ',' then
            match parseElems fuel r2 with
            | some (tl, r3) => some (.cons v tl, r3)
            | none => none
          else if d = ']' then some (.cons v .nil, r2)
          else none) := rfl

theorem parseFields_zero (cs : List Char) : parseFields 0 cs = none := rfl

theorem parseFields_succ (fuel : Nat) (cs : List Char) :
    parseFields (fuel + 1) cs =
      (match cs with
      | [] => none
      | c :: rest =>
        if c = '\"' then
          match parseStrBody rest with
          | none => none
          | some (k, r) =>
            match r with
            | [] => none
            | d :: r2 =>
              if d = ':' then
                match parseVal fuel r2 with
                | none => none
                | some (v, r3) =>
                  match r3 with
                  | [] => none
                  | e :: r4 =>
                    if e = ',' then
                      match parseFields fuel r4 with
                      | some (tl, r5) => some (.cons (String.mk k) v tl, r5)
                      | none => none
                    else if e = braceClose then some (.cons (String.mk k) v .nil, r4)
                    else none
              else none
        else none) := rfl

/-! ## Soundness of the parser: it accepts only canonical encodings -/

theorem parse_sound_all : ∀ fuel : Nat,
    (∀ cs v r, parseVal fuel cs = some (v, r) → cs = stringifyChars v ++ r) ∧
    (∀ cs xs r, parseElems fuel cs = some (xs, r) →
      ∃ v tl, xs = JsonList.cons v tl ∧
        cs = stringifyChars v ++ stringifyRestElems tl ++ ']' :: r) ∧
    (∀ cs fs r, parseFields fuel cs = some (fs, r) →
      ∃ k v tl, fs = JsonFields.cons k v tl ∧
        cs = keyChars k ++ ':' :: stringifyChars v ++ stringifyRestFields tl
          ++ braceClose :: r) := by
  intro fuel
  induction fuel with
  | zero =>
    refine ⟨?_, ?_, ?_⟩ <;> intro cs a r h <;>
      simp [parseVal_zero, parseElems_zero, parseFields_zero] at h
  | succ fuel ih =>
    obtain ⟨ihV, ihE, ihF⟩ := ih
    refine ⟨?_, ?_, ?_⟩
    · intro cs v r h
      cases cs with
      | nil => simp [parseVal_succ_nil] at h
      | cons c rest =>
        rw [parseVal_succ_cons] at h
        split_ifs at h with h1 h2 h3 h4 h5 h6
        · cases he : expectChars ['u', 'l', 'l'] rest with
          | none => rw [he] at h; simp at h
          | some r2 =>
            rw [he] at h
            simp only [Option.some.injEq, Prod.mk.injEq] at h
            obtain ⟨hv, hr⟩ := h
            subst h1
            rw [← hv, ← hr, expectChars_sound _ _ _ he]
            simp [stringifyChars]
        · cases he : expectChars ['r', 'u', 'e'] rest with
          | none => rw [he] at h; simp at h
          | some r2 =>
            rw [he] at h
            simp only [Option.some.injEq, Prod.mk.injEq] at h
            obtain ⟨hv, hr⟩ := h
            subst h2
            rw [← hv, ← hr, expectChars_sound _ _ _ he]
            simp [stringifyChars]
        · cases he : expectChars ['a', 'l', 's', 'e'] rest with
          | none => rw [he] at h; simp at h
          | some r2 =>
            rw [he] at h
            simp only [Option.some.injEq, Prod.mk.injEq] at h
            obtain ⟨hv, hr⟩ := h
            subst h3
            rw [← hv, ← hr, expectChars_sound _ _ _ he]
            simp [stringifyChars]
        · cases hp : parseStrBody rest with
          | none => rw [hp] at h; simp at h
          | some pr =>
            obtain ⟨s2, r2⟩ := pr
            rw [hp] at h
            simp only [Option.some.injEq, Prod.mk.injEq] at h
            obtain ⟨hv, hr⟩ := h
            subst h4
            rw [← hv, ← hr, parseStrBody_sound hp]
            simp [stringifyChars]
        · cases rest with
          | nil => simp at h
          | cons d r0 =>
            simp only [] at h
            split_ifs at h with hd
            · simp only [Option.some.injEq, Prod.mk.injEq] at h
              obtain ⟨hv, hr⟩ := h
              subst h5
              subst hd
              rw [← hv, ← hr]
              simp [stringifyChars, stringifyList]
            · cases hp : parseElems fuel (d :: r0) with
              | none => rw [hp] at h; simp at h
              | some pr =>
                obtain ⟨xs, r2⟩ := pr
                rw [hp] at h
                simp only [Option.some.injEq, Prod.mk.injEq] at h
                obtain ⟨hv, hr⟩ := h
                obtain ⟨v0, tl, hxs, hcs⟩ := ihE _ _ _ hp
                subst h5
                rw [← hv, ← hr, hxs, hcs]
                simp [stringifyChars, stringifyList]
        · cases rest with
          | nil => simp at h
          | cons d r0 =>
            simp only [] at h
            split_ifs at h with hd
            · simp only [Option.some.injEq, Prod.mk.injEq] at h
              obtain ⟨hv, hr⟩ := h
              subst h6
              subst hd
              rw [← hv, ← hr]
              simp [stringifyChars, stringifyObjFields]
            · cases hp : parseFields fuel (d :: r0) with
              | none => rw [hp] at h; simp at h
              | some pr =>
                obtain ⟨fs, r2⟩ := pr
                rw [hp] at h
                simp only [Option.some.injEq, Prod.mk.injEq] at h
                obtain ⟨hv, hr⟩ := h
                obtain ⟨k, v0, tl, hfs, hcs⟩ := ihF _ _ _ hp
                subst h6
                rw [← hv, ← hr, hfs, hcs]
                simp [stringifyChars, stringifyObjFields]
        · cases hp : parseNumber (c :: rest) with
          | none => rw [hp] at h; simp at h
          | some pr =>
            obtain ⟨n, r2⟩ := pr
            rw [hp] at h
            simp only [Option.some.injEq, Prod.mk.injEq] at h
            obtain ⟨hv, hr⟩ := h
            rw [← hv, ← hr]
            have hs := parseNumber_sound hp
            simpa [stringifyChars] using hs
    · intro cs xs r h
      rw [parseElems_succ] at h
      cases hp : parseVal fuel cs with
      | none => rw [hp] at h; simp at h
      | some pr =>
        obtain ⟨v, r1⟩ := pr
        rw [hp] at h
        simp only [] at h
        cases r1 with
        | nil => simp at h
        | cons d r2 =>
          simp only [] at h
          have hcs := ihV _ _ _ hp
          split_ifs at h with hd hd2
          · cases hq : parseElems fuel r2 with
            | none => rw [hq] at h; simp at h
            | some pr2 =>
              obtain ⟨tl1, r3⟩ := pr2
              rw [hq] at h
              simp only [Option.some.injEq, Prod.mk.injEq] at h
              obtain ⟨hxs, hr⟩ := h
              obtain ⟨w, tl2, htl, hcs2⟩ := ihE _ _ _ hq
              refine ⟨v, tl1, hxs.symm ▸ rfl, ?_⟩
              rw [← hr, hcs, hcs2, htl]
              subst hd
              simp [stringifyRestElems]
          · simp only [Option.some.injEq, Prod.mk.injEq] at h
            obtain ⟨hxs, hr⟩ := h
            refine ⟨v, JsonList.nil, hxs.symm ▸ rfl, ?_⟩
            rw [← hr, hcs]
            subst hd2
            simp [stringifyRestElems]
    · intro cs fs r h
      rw [parseFields_succ] at h
      cases cs with
      | nil => simp at h
      | cons c rest =>
        simp only [] at h
        split_ifs at h with hc
        cases hp : parseStrBody rest with
        | none => rw [hp] at h; simp at h
        | some pr =>
          obtain ⟨k0, r1⟩ := pr
          rw [hp] at h
          simp only [] at h
          cases r1 with
          | nil => simp at h
          | cons d r2 =>
            simp only [] at h
            split_ifs at h with hd
            cases hq : parseVal fuel r2 with
            | none => rw [hq] at h; simp at h
            | some pr2 =>
              obtain ⟨v, r3⟩ := pr2
              rw [hq] at h
              simp only [] at h
              cases r3 with
              | nil => simp at h
              | cons e r4 =>
                simp only [] at h
                have hr2 := ihV _ _ _ hq
                split_ifs at h with he he2
                · cases hz : parseFields fuel r4 with
                  | none => rw [hz] at h; simp at h
                  | some pr3 =>
                    obtain ⟨tl1, r5⟩ := pr3
                    rw [hz] at h
                    simp only [Option.some.injEq, Prod.mk.injEq] at h
                    obtain ⟨hfs, hr⟩ := h
                    obtain ⟨k2, v2, tl2, htl, hcs2⟩ := ihF _ _ _ hz
                    refine ⟨String.mk k0, v, tl1, hfs.symm ▸ rfl, ?_⟩
                    rw [← hr, parseStrBody_sound hp, hr2, hcs2, htl]
                    subst hc
                    subst hd
                    subst he
                    simp [keyChars, stringifyRestFields]
                · simp only [Option.some.injEq, Prod.mk.injEq] at h
                  obtain ⟨hfs, hr⟩ := h
                  refine ⟨String.mk k0, v, JsonFields.nil, hfs.symm ▸ rfl, ?_⟩
                  rw [← hr, parseStrBody_sound hp, hr2]
                  subst hc
                  subst hd
                  subst he2
                  simp [keyChars, stringifyRestFields]

/-! ## Completeness lemmas -/

theorem one_le_jsonSizeV (v : JsonValue) : 1 ≤ jsonSizeV v := by
  cases v <;> (simp [jsonSizeV]; try omega)

theorem one_le_jsonSizeL (tl : JsonList) : 1 ≤ jsonSizeL tl := by
  cases tl with
  | nil => simp [jsonSizeL]
  | cons v tl => simp only [jsonSizeL]; omega

theorem one_le_jsonSizeF (tl : JsonFields) : 1 ≤ jsonSizeF tl := by
  cases tl with
  | nil => simp [jsonSizeF]
  | cons k v tl => simp only [jsonSizeF]; omega

theorem stringify_length_pos (v : JsonValue) : 1 ≤ (stringifyChars v).length :=
  List.length_pos.2 (stringifyChars_ne_nil v)

theorem parse_complete_all : ∀ N : Nat,
    (∀ v : JsonValue, jsonSizeV v ≤ N → ∀ (fuel : Nat) (rest : List Char),
      (stringifyChars v).length ≤ fuel →
      (∀ c, rest.head? = some c → isDigitChar c = false) →
      parseVal fuel (stringifyChars v ++ rest) = some (v, rest)) ∧
    (∀ (v : JsonValue) (tl : JsonList), jsonSizeV v + jsonSizeL tl ≤ N →
      ∀ (fuel : Nat) (rest : List Char),
      (stringifyChars v ++ stringifyRestElems tl).length + 1 ≤ fuel →
      parseElems fuel (stringifyChars v ++ stringifyRestElems tl ++ ']' :: rest)
        = some (JsonList.cons v tl, rest)) ∧
    (∀ (k : String) (v : JsonValue) (tl : JsonFields), jsonSizeV v + jsonSizeF tl ≤ N →
      ∀ (fuel : Nat) (rest : List Char),
      (keyChars k ++ ':' :: stringifyChars v ++ stringifyRestFields tl).length + 1 ≤ fuel →
      parseFields fuel
        (keyChars k ++ ':' :: stringifyChars v ++ stringifyRestFields tl ++ braceClose :: rest)
        = some (JsonFields.cons k v tl, rest)) := by
  intro N
  induction N using Nat.strong_induction_on with
  | _ N ih =>
    refine ⟨?_, ?_, ?_⟩
    · intro v hsize fuel rest hfuel hf
      cases v with
      | null =>
        obtain ⟨f, rfl⟩ : ∃ f, fuel = f + 1 :=
          ⟨fuel - 1, by have := stringify_length_pos JsonValue.null; omega⟩
        simp only [stringifyChars, List.cons_append, List.nil_append]
        exact rfl
      | boolean b =>
        obtain ⟨f, rfl⟩ : ∃ f, fuel = f + 1 :=
          ⟨fuel - 1, by have := stringify_length_pos (JsonValue.boolean b); omega⟩
        cases b <;>
          simp only [stringifyChars, List.cons_append, List.nil_append] <;>
          exact rfl
      | num n =>
        obtain ⟨f, rfl⟩ : ∃ f, fuel = f + 1 :=
          ⟨fuel - 1, by have := stringify_length_pos (JsonValue.num n); omega⟩
        obtain ⟨c0, cs0, hnc⟩ : ∃ c0 cs0, numChars n = c0 :: cs0 := by
          cases hx : numChars n with
          | nil => exact absurd hx (numChars_ne_nil n)
          | cons c0 cs0 => exact ⟨c0, cs0, rfl⟩
        have hne := numChars_head_ne hnc
        simp only [stringifyChars]
        rw [hnc]
        simp only [List.cons_append]
        rw [parseVal_succ_cons, if_neg hne.1, if_neg hne.2.1, if_neg hne.2.2.1,
          if_neg hne.2.2.2.1, if_neg hne.2.2.2.2.1, if_neg hne.2.2.2.2.2.1]
        rw [show c0 :: (cs0 ++ rest) = numChars n ++ rest from by rw [hnc]; simp]
        rw [parseNumber_complete n hf]
      | str s =>
        obtain ⟨f, rfl⟩ : ∃ f, fuel = f + 1 :=
          ⟨fuel - 1, by have := stringify_length_pos (JsonValue.str s); omega⟩
        simp only [stringifyChars, List.cons_append, List.append_assoc,
          List.nil_append]
        have hstep : parseVal (f + 1) ('\"' :: (escapeChars s.data ++ '\"' :: rest)) =
            (match parseStrBody (escapeChars s.data ++ '\"' :: rest) with
            | some (s1, r) => some (JsonValue.str (String.mk s1), r)
            | none => none) := rfl
        rw [hstep, parseStrBody_complete s.data rest]
      | arr xs =>
        cases xs with
        | nil =>
          obtain ⟨f, rfl⟩ : ∃ f, fuel = f + 1 :=
            ⟨fuel - 1, by have := stringify_length_pos (JsonValue.arr JsonList.nil); omega⟩
          simp only [stringifyChars, stringifyList, List.cons_append, List.nil_append]
          exact rfl
        | cons w tl =>
          obtain ⟨f, rfl⟩ : ∃ f, fuel = f + 1 :=
            ⟨fuel - 1, by have := stringify_length_pos (JsonValue.arr (JsonList.cons w tl)); omega⟩
          have hE := (ih (N - 1) (by
              have := one_le_jsonSizeV w
              simp only [jsonSizeV, jsonSizeL] at hsize
              omega)).2.1 w tl
            (by simp only [jsonSizeV, jsonSizeL] at hsize; omega) f rest
            (by
              simp only [stringifyChars, stringifyList, List.length_append,
                List.length_cons, List.length_nil] at hfuel ⊢
              omega)
          simp only [stringifyChars, stringifyList, List.cons_append,
            List.append_assoc, List.nil_append]
          rw [parseVal_succ_cons, if_neg (by decide), if_neg (by decide),
            if_neg (by decide), if_neg (by decide), if_pos rfl]
          obtain ⟨c0, cs0, hw⟩ : ∃ c0 cs0, stringifyChars w = c0 :: cs0 := by
            cases hx : stringifyChars w with
            | nil => exact absurd hx (stringifyChars_ne_nil w)
            | cons c0 cs0 => exact ⟨c0, cs0, rfl⟩
          rw [hw]
          simp only [List.cons_append]
          rw [if_neg (stringify_head_ne hw).1]
          rw [show c0 :: (cs0 ++ (stringifyRestElems tl ++ ']' :: rest)) =
                stringifyChars w ++ stringifyRestElems tl ++ ']' :: rest from by
            rw [hw]; simp]
          rw [hE]
      | obj fs =>
        cases fs with
        | nil =>
          obtain ⟨f, rfl⟩ : ∃ f, fuel = f + 1 :=
            ⟨fuel - 1, by have := stringify_length_pos (JsonValue.obj JsonFields.nil); omega⟩
          simp only [stringifyChars, stringifyObjFields, List.cons_append, List.nil_append]
          exact rfl
        | cons k w tl =>
          obtain ⟨f, rfl⟩ : ∃ f, fuel = f + 1 :=
            ⟨fuel - 1, by
              have := stringify_length_pos (JsonValue.obj (JsonFields.cons k w tl))
              omega⟩
          have hF := (ih (N - 1) (by
              have := one_le_jsonSizeV w
              simp only [jsonSizeV, jsonSizeF] at hsize
              omega)).2.2 k w tl
            (by simp only [jsonSizeV, jsonSizeF] at hsize; omega) f rest
            (by
              simp only [stringifyChars, stringifyObjFields, keyChars,
                List.length_append, List.length_cons, List.length_nil] at hfuel ⊢
              omega)
          simp only [stringifyChars, stringifyObjFields, List.cons_append,
            List.append_assoc, List.nil_append]
          rw [parseVal_succ_cons, if_neg (by decide), if_neg (by decide),
            if_neg (by decide), if_neg (by decide), if_neg (by decide), if_pos rfl]
          simp only [keyChars, List.cons_append, List.append_assoc, List.nil_append]
          rw [if_neg (by decide : ¬('\"' : Char) = braceClose)]
          simp only [keyChars, List.cons_append, List.append_assoc, List.nil_append] at hF
          rw [hF]
    · intro v tl hsize fuel rest hfuel
      obtain ⟨f, rfl⟩ : ∃ f, fuel = f + 1 := ⟨fuel - 1, by omega⟩
      have hf' : ∀ c, (stringifyRestElems tl ++ ']' :: rest).head? = some c →
          isDigitChar c = false := by
        cases tl with
        | nil =>
          intro c hc
          simp [stringifyRestElems] at hc
          subst hc
          decide
        | cons w2 tl2 =>
          intro c hc
          simp [stringifyRestElems] at hc
          subst hc
          decide
      have hV := (ih (N - 1) (by
          have := one_le_jsonSizeL tl
          have := one_le_jsonSizeV v
          omega)).1 v
        (by have := one_le_jsonSizeL tl; omega) f
        (stringifyRestElems tl ++ ']' :: rest)
        (by simp only [List.length_append] at hfuel; omega) hf'
      rw [parseElems_succ, List.append_assoc, hV]
      cases tl with
      | nil => simp [stringifyRestElems]
      | cons w tl2 =>
        simp only [stringifyRestElems, List.cons_append, List.append_assoc]
        try simp only []
        rw [if_pos trivial]
        have hE := (ih (N - 1) (by
            have := one_le_jsonSizeV v
            simp only [jsonSizeL] at hsize
            omega)).2.1 w tl2
          (by simp only [jsonSizeL] at hsize; omega) f rest
          (by
            have h1 := stringify_length_pos v
            simp only [stringifyRestElems, List.length_append, List.length_cons] at hfuel ⊢
            omega)
        rw [← List.append_assoc, hE]
    · intro k v tl hsize fuel rest hfuel
      obtain ⟨f, rfl⟩ : ∃ f, fuel = f + 1 := ⟨fuel - 1, by omega⟩
      have hf' : ∀ c, (stringifyRestFields tl ++ braceClose :: rest).head? = some c →
          isDigitChar c = false := by
        cases tl with
        | nil =>
          intro c hc
          simp [stringifyRestFields] at hc
          subst hc
          decide
        | cons k2 w2 tl2 =>
          intro c hc
          simp [stringifyRestFields] at hc
          subst hc
          decide
      have hV := (ih (N - 1) (by
          have := one_le_jsonSizeF tl
          have := one_le_jsonSizeV v
          omega)).1 v
        (by have := one_le_jsonSizeF tl; omega) f
        (stringifyRestFields tl ++ braceClose :: rest)
        (by simp only [keyChars, List.length_append, List.length_cons] at hfuel; omega) hf'
      rw [parseFields_succ]
      simp only [keyChars, List.cons_append, List.append_assoc, List.nil_append]
      try simp only []
      rw [if_pos trivial]
      rw [parseStrBody_complete k.data
        (':' :: (stringifyChars v ++ (stringifyRestFields tl ++ braceClose :: rest)))]
      try simp only []
      rw [if_pos trivial]
      rw [hV]
      cases tl with
      | nil =>
        simp only [stringifyRestFields, List.nil_append]
        try simp only []
        rw [if_neg (by decide : ¬braceClose = ',')]
        rw [if_pos trivial]
      | cons k2 w2 tl2 =>
        simp only [stringifyRestFields, List.cons_append, List.append_assoc]
        try simp only []
        rw [if_pos trivial]
        have hF := (ih (N - 1) (by
            have := one_le_jsonSizeV v
            simp only [jsonSizeF] at hsize
            omega)).2.2 k2 w2 tl2
          (by simp only [jsonSizeF] at hsize; omega) f rest
          (by
            have h1 := stringify_length_pos v
            simp only [stringifyRestFields, keyChars, List.length_append,
              List.length_cons] at hfuel ⊢
            omega)
        rw [show keyChars k2 ++ ':' :: (stringifyChars w2 ++ (stringifyRestFields tl2
              ++ braceClose :: rest)) =
              keyChars k2 ++ ':' :: stringifyChars w2 ++ stringifyRestFields tl2
                ++ braceClose :: rest from by simp]
        rw [hF]

/-! ## The codec roundtrip and the claims about it -/

theorem parseJson_getJSON (v : JsonValue) : parseJson (getJSON v) = some v := by
  unfold parseJson getJSON
  have hdata : (String.mk (stringifyChars v)).data = stringifyChars v := rfl
  rw [hdata]
  have hV := (parse_complete_all (jsonSizeV v)).1 v le_rfl
    ((stringifyChars v).length + 1) []
    (by omega) (by intro c hc; simp at hc)
  rw [show stringifyChars v ++ ([] : List Char) = stringifyChars v from by simp] at hV
  rw [hV]

theorem getJSON_of_parseJson {s : String} {v : JsonValue} (h : parseJson s = some v) :
    getJSON v = s := by
  unfold parseJson at h
  cases hp : parseVal (s.data.length + 1) s.data with
  | none => rw [hp] at h; simp at h
  | some pr =>
    obtain ⟨w, r⟩ := pr
    rw [hp] at h
    cases r with
    | nil =>
      simp only [Option.some.injEq] at h
      subst h
      have hs := (parse_sound_all _).1 _ _ _ hp
      simp only [List.append_nil] at hs
      unfold getJSON
      rw [← hs]
    | cons c r2 => simp at h

/-- Claim C5: serializing the array 1, 2, 3 yields the text `[1,2,3]`, and
for every structural value of the modelled codec, deserializing the text
produced by serialization under any behavior template returns a value with
exactly the original fields and the given template. -/
theorem c5_serialize_roundtrip :
    getJSON (JsonValue.arr (.cons (.num 1) (.cons (.num 2) (.cons (.num 3) .nil))))
        = "[1,2,3]" ∧
    (∀ (P : Type) (proto : P) (v : JsonValue),
      fromJSON proto (getJSON v) = some ⟨v, proto⟩) := by
  constructor
  · rfl
  · intro P proto v
    unfold fromJSON
    rw [parseJson_getJSON v]
    rfl

/-- Claim C6: whenever the text parses, deserializing attaches the given
behavior template to exactly the parsed structural value: the own fields
come entirely from the text and the behaviors from the template. -/
theorem c6_deserialize_fields_and_proto (P : Type) (proto : P) (t : String)
    (v : JsonValue) (h : parseJson t = some v) :
    fromJSON proto t = some ⟨v, proto⟩ := by
  unfold fromJSON
  rw [h]
  rfl

/-- Witness for C6 at the concrete example of the spec: deserializing the
text with a radius field of 10 under the circle template yields a value with
that field and the behaviors of the template. -/
theorem c6_witness :
    fromJSON CircleTemplate "\x7b\"radius\":10\x7d"
        = some ⟨JsonValue.obj (.cons "radius" (.num 10) .nil), CircleTemplate⟩ ∧
    JsonFields.lookup (.cons "radius" (.num 10) .nil) "radius" = some (.num 10) :=
  ⟨c6_deserialize_fields_and_proto CircleBehaviors CircleTemplate _ _ rfl, rfl⟩

/-- Claim C7: deserialization fails (the parse error of the codec) exactly
when the text is not the encoding of any structural value; the failure is
the value `none`, with no recovery. -/
theorem c7_parse_error_iff_not_encoding (P : Type) (proto : P) (s : String) :
    fromJSON proto s = none ↔ ¬ ∃ v : JsonValue, getJSON v = s := by
  unfold fromJSON
  constructor
  · intro h hex
    obtain ⟨v, hv⟩ := hex
    rw [← hv, parseJson_getJSON v] at h
    simp at h
  · intro h
    cases hp : parseJson s with
    | none => rfl
    | some v => exact absurd ⟨v, getJSON_of_parseJson hp⟩ h
